import Mathlib

/-!
Verification of the SPN cipher and differential-cryptanalysis core
(spn_components.py, spn.py, differential_crypto.py).

Bit vectors are `List Nat` whose entries are 0 or 1; fallible operations
(Python `raise ValueError`) return `Option`.
-/

namespace SpnModel

/-- `key_whitening` (spn_components.py): XOR a round key into the state;
fails when the lengths differ. -/
def key_whitening (state key : List Nat) : Option (List Nat) :=
  if state.length = key.length then
    some ((List.range state.length).map (fun i => state.getD i 0 ^^^ key.getD i 0))
  else none

/-- The default S-box table of `SBOX.__init__`. -/
def default_table : List Nat :=
  [0xC, 0x5, 0x6, 0xB, 0x9, 0x0, 0xA, 0xD, 0x3, 0xE, 0xF, 0x8, 0x4, 0x7, 0x1, 0x2]

/-- `SBOX._convert_to_int`: bit i contributes `bit[i] << i`; fails when the
input is not exactly `bits` long. -/
def convert_to_int (bits : Nat) (x : List Nat) : Option Nat :=
  if x.length = bits then
    some (((List.range bits).map (fun i => x.getD i 0 <<< i)).sum)
  else none

/-- `SBOX._convert_to_binary`: `[1 if (x >> i) & 1 else 0 for i in range(bits)]`. -/
def convert_to_binary (bits : Nat) (x : Nat) : List Nat :=
  (List.range bits).map (fun i => (x >>> i) &&& 1)

/-- `SBOX._compute_inverse`: `inverse[val] = i` for every `(i, val)` of the table. -/
def compute_inverse (size : Nat) (table : List Nat) : List Nat :=
  table.enum.foldl (fun acc p => acc.set p.2 p.1) (List.replicate size 0)

/-- `SBOX._is_bijective`: all values in range and no repeats (`len(set(...))`). -/
def is_bijective (size : Nat) (table : List Nat) : Bool :=
  table.all (fun v => decide (v < size)) && decide (table.dedup.length = size)

/-- `SBOX._validate_table`: the length check plus `_is_bijective`. -/
def validate_table (size : Nat) (table : List Nat) : Bool :=
  decide (table.length = size) && is_bijective size table

/-- The attributes an `SBOX` instance holds after construction. -/
structure SBOX where
  bits : Nat
  size : Nat
  table : List Nat
  inverse : List Nat
deriving DecidableEq

/-- `SBOX.__init__` with an explicit table: validate, store the table and
precompute the inverse; a `ValueError` becomes `none`. -/
def SBOX.new (table : List Nat) (bits : Nat) : Option SBOX :=
  if validate_table (2 ^ bits) table then
    some { bits := bits, size := 2 ^ bits, table := table,
           inverse := compute_inverse (2 ^ bits) table }
  else none

/-- `SBOX.encrypt`: int conversion, forward table lookup, back to binary. -/
def SBOX.encrypt (s : SBOX) (x : List Nat) : Option (List Nat) :=
  (convert_to_int s.bits x).bind fun xi =>
    (s.table[xi]?).map fun y => convert_to_binary s.bits y

/-- `SBOX.decrypt`: int conversion, inverse table lookup, back to binary. -/
def SBOX.decrypt (s : SBOX) (x : List Nat) : Option (List Nat) :=
  (convert_to_int s.bits x).bind fun xi =>
    (s.inverse[xi]?).map fun y => convert_to_binary s.bits y

/-- `SubstitutionLayer.encrypt`: chunk i is `state[i*bits : (i+1)*bits]`,
each chunk goes through its S-box, results are concatenated. -/
def substitution_encrypt (sboxes : List SBOX) (bits length : Nat) (state : List Nat) :
    Option (List Nat) :=
  if state.length = length then do
    let chunks ← sboxes.enum.mapM (fun p => p.2.encrypt ((state.drop (p.1 * bits)).take bits))
    pure chunks.flatten
  else none

/-- `SubstitutionLayer.decrypt`: identical traversal with each S-box's inverse. -/
def substitution_decrypt (sboxes : List SBOX) (bits length : Nat) (state : List Nat) :
    Option (List Nat) :=
  if state.length = length then do
    let chunks ← sboxes.enum.mapM (fun p => p.2.decrypt ((state.drop (p.1 * bits)).take bits))
    pure chunks.flatten
  else none

/-- One `result[dst] = state[src]` write per pair, with Python's IndexError
modelled as `none`; `acc` plays the role of the `result` list. -/
def setPairs (state : List Nat) : List (Nat × Nat) → List Nat → Option (List Nat)
  | [], acc => some acc
  | p :: ps, acc =>
    if p.1 < state.length ∧ p.2 < acc.length then
      setPairs state ps (acc.set p.2 (state.getD p.1 0))
    else none

/-- `PermutationLayer._validate_permutation`: non-empty map, destination
values in `[0, len)` and no duplicate destinations; sources are not examined. -/
def validate_permutation (perm : List (Nat × Nat)) : Bool :=
  decide (perm ≠ []) && (perm.map Prod.snd).all (fun v => decide (v < perm.length))
    && decide ((perm.map Prod.snd).dedup.length = perm.length)

/-- `PermutationLayer.encrypt`: `result[dst] = state[src]` over the stored map. -/
def permutation_encrypt (perm : List (Nat × Nat)) (state : List Nat) : Option (List Nat) :=
  if state.length = perm.length then setPairs state perm (List.replicate perm.length 0)
  else none

/-- `PermutationLayer.decrypt`: the pairs are read as `(dst, src)`, so each
write is `result[src_of_pair] = state[dst_of_pair]` (the inverse direction). -/
def permutation_decrypt (perm : List (Nat × Nat)) (state : List Nat) : Option (List Nat) :=
  if state.length = perm.length then
    setPairs state (perm.map (fun p => (p.2, p.1))) (List.replicate perm.length 0)
  else none

/-- The closed variant type for the cipher's layers (spn.py dispatches on
`isinstance`); whitening layers are markers consuming a round key at run time. -/
inductive SPNLayer where
  | substitution (sboxes : List SBOX) (bits : Nat) (length : Nat)
  | permutation (perm : List (Nat × Nat))
  | whitening
deriving DecidableEq

/-- `SubstitutionLayer.__init__`: all boxes share one bit width and
`length = bits * count`; an empty list hits Python's `sboxes[0]` IndexError. -/
def SubstitutionLayer.new (sboxes : List SBOX) (length : Nat) : Option SPNLayer :=
  match sboxes with
  | [] => none
  | s0 :: _ =>
    if sboxes.all (fun s => decide (s.bits = s0.bits)) then
      if length = s0.bits * sboxes.length then
        some (SPNLayer.substitution sboxes s0.bits length)
      else none
    else none

/-- `PermutationLayer.__init__`: store the map after `_validate_permutation`. -/
def PermutationLayer.new (perm : List (Nat × Nat)) : Option SPNLayer :=
  if validate_permutation perm then some (SPNLayer.permutation perm) else none

/-- The `length` attribute of a substitution or permutation layer. -/
def layer_length : SPNLayer → Nat
  | .substitution _ _ len => len
  | .permutation perm => perm.length
  | .whitening => 0

/-- The `SPN` object: ordered layers, block length, whitening counter and
the round-key schedule function. -/
structure SPN where
  layers : List SPNLayer
  length : Nat
  num_rounds : Nat
  key_round_function : List Nat → Nat → List Nat

/-- `generate_round_key` (spn.py): slice `master_key[4*r-4 : 4*r-4+key_size]`. -/
def generate_round_key (master_key : List Nat) (round_num : Nat) (key_size : Nat := 16) :
    List Nat :=
  (master_key.drop (4 * round_num - 4)).take key_size

/-- `SPN.build_standard_spn`: R-1 repetitions of whitening/substitution/
permutation, then whitening/substitution/whitening; each added layer must
match the cipher length, and the whitening counter ends at `(R-1)+2`. -/
def build_standard_spn (length : Nat) (sbox : SBOX) (perm : List (Nat × Nat))
    (key_schedule : List Nat → Nat → List Nat) (num_rounds : Nat := 4) : Option SPN := do
  let sub ← SubstitutionLayer.new (List.replicate (length / sbox.bits) sbox) length
  let permL ← PermutationLayer.new perm
  if layer_length sub = length ∧ layer_length permL = length then
    some { layers := (List.replicate (num_rounds - 1) [SPNLayer.whitening, sub, permL]).flatten
                      ++ [SPNLayer.whitening, sub, SPNLayer.whitening],
           length := length,
           num_rounds := (num_rounds - 1) + 2,
           key_round_function := key_schedule }
  else none

/-- The layer traversal of `SPN.encrypt`: whitening derives the round key
from the ascending counter and increments it. -/
def run_encrypt (keyFn : List Nat → Nat → List Nat) (masterKey : List Nat) :
    List SPNLayer → Nat → List Nat → Option (List Nat)
  | [], _, state => some state
  | SPNLayer.substitution sboxes bits len :: rest, r, state =>
      (substitution_encrypt sboxes bits len state).bind (run_encrypt keyFn masterKey rest r)
  | SPNLayer.permutation perm :: rest, r, state =>
      (permutation_encrypt perm state).bind (run_encrypt keyFn masterKey rest r)
  | SPNLayer.whitening :: rest, r, state =>
      (key_whitening state (keyFn masterKey r)).bind (run_encrypt keyFn masterKey rest (r + 1))

/-- `SPN.encrypt`: master-key length check first, then the forward traversal
with the round counter starting at 1. -/
def SPN.encrypt (spn : SPN) (state masterKey : List Nat) : Option (List Nat) :=
  if masterKey.length < spn.length then none
  else run_encrypt spn.key_round_function masterKey spn.layers 1 state

/-- The layer traversal of `SPN.decrypt_`: the SAME forward layer order, each
layer's decrypt operation, the round counter descending from `num_rounds`. -/
def run_decrypt (keyFn : List Nat → Nat → List Nat) (masterKey : List Nat) :
    List SPNLayer → Nat → List Nat → Option (List Nat)
  | [], _, state => some state
  | SPNLayer.substitution sboxes bits len :: rest, r, state =>
      (substitution_decrypt sboxes bits len state).bind (run_decrypt keyFn masterKey rest r)
  | SPNLayer.permutation perm :: rest, r, state =>
      (permutation_decrypt perm state).bind (run_decrypt keyFn masterKey rest r)
  | SPNLayer.whitening :: rest, r, state =>
      (key_whitening state (keyFn masterKey r)).bind (run_decrypt keyFn masterKey rest (r - 1))

/-- `SPN.decrypt_` (the only decryption method the class defines). -/
def SPN.decrypt_ (spn : SPN) (state masterKey : List Nat) : Option (List Nat) :=
  if masterKey.length < spn.length then none
  else run_decrypt spn.key_round_function masterKey spn.layers spn.num_rounds state

/-- The S-box table of differential_crypto.py. -/
def dcTable : List Nat :=
  [0x7, 0xD, 0xE, 0x3, 0x0, 0x6, 0x9, 0xA, 0x1, 0x2, 0x8, 0x5, 0xB, 0xC, 0x4, 0xF]

/-- The bit permutation of differential_crypto.py (source to destination). -/
def dcPerm : List (Nat × Nat) :=
  [(0, 0), (1, 4), (2, 8), (3, 12), (4, 1), (5, 5), (6, 9), (7, 13),
   (8, 2), (9, 6), (10, 10), (11, 14), (12, 3), (13, 7), (14, 11), (15, 15)]

/-- The cipher differential_crypto.py builds: 16-bit, 4 standard rounds. -/
def dcSpn : Option SPN :=
  (SBOX.new dcTable 4).bind fun sb =>
    build_standard_spn 16 sb dcPerm (fun mk r => generate_round_key mk r 16) 4

/-- The test plaintext `1010 1100 1100 1010`. -/
def dcPlaintext : List Nat := [1, 0, 1, 0, 1, 1, 0, 0, 1, 1, 0, 0, 1, 0, 1, 0]

/-- The 32-bit test master key `0110 1010 1100 0101 1001 0110 1010 1100`. -/
def dcMasterKey : List Nat :=
  [0, 1, 1, 0, 1, 0, 1, 0, 1, 1, 0, 0, 0, 1, 0, 1, 1, 0, 0, 1, 0, 1, 1, 0, 1, 0, 1, 0, 1, 1, 0, 0]

/-- One entry of the difference-distribution table: how many inputs `a` of
`range(2^k)` give output difference `bp` when the input difference is `d`
(`b_diff = S(a) XOR S(a XOR d)` tallied into `diff_counts`). -/
def ddt_entry (table : List Nat) (size d bp : Nat) : Nat :=
  ((List.range size).filter (fun a => table.getD a 0 ^^^ table.getD (a ^^^ d) 0 = bp)).length

/-- The sum of one DDT row. -/
def ddt_row_sum (table : List Nat) (size d : Nat) : Nat :=
  ((List.range size).map (fun bp => ddt_entry table size d bp)).sum

/-- Row `d` of the `df` table differential_crypto.py builds for `dcTable`. -/
def dfRow (d : Nat) : List Nat :=
  (List.range 16).map (fun bp => ddt_entry dcTable 16 d bp)

/-- Pandas `idxmax` over a row: the first column index holding the maximum. -/
def idxmax (row : List Nat) : Nat :=
  (List.range row.length).foldl (fun best j => if row.getD best 0 < row.getD j 0 then j else best) 0

/-- Dict lookup into `perm_map` of differential_crypto.py. -/
def dcPermLookup (i : Nat) : Nat := (dcPerm.lookup i).getD 0

/-- The result record of `trace_differential_trail`. -/
structure TrailResult where
  trail : List (List Nat)
  probability : ℚ
  active_sboxes : Nat

/-- The per-round S-box pass of the trail trace: every position with a
nonzero difference takes the most probable DDT output difference,
multiplies the trail probability by `count/16` and is recorded active. -/
def sboxRound (state_diff : List Nat) (prob : ℚ) (active : List Nat) :
    List Nat × ℚ × List Nat :=
  (List.range 4).foldl
    (fun acc i =>
      if state_diff.getD i 0 ≠ 0 then
        (acc.1.set i (idxmax (dfRow (state_diff.getD i 0))),
         acc.2.1 * (((dfRow (state_diff.getD i 0)).getD (idxmax (dfRow (state_diff.getD i 0))) 0 : ℚ) / 16),
         acc.2.2 ++ [i])
      else acc)
    (List.replicate 4 0, prob, active)

/-- The bit-level permutation pass of the trail trace. -/
def permStep (after_sbox : List Nat) : List Nat :=
  (List.range 4).foldl
    (fun ap sbox_idx =>
      (List.range 4).foldl
        (fun ap2 bit_idx =>
          if (after_sbox.getD sbox_idx 0 >>> bit_idx) &&& 1 = 1 then
            ap2.set (dcPermLookup (sbox_idx * 4 + bit_idx) / 4)
              (ap2.getD (dcPermLookup (sbox_idx * 4 + bit_idx) / 4) 0 |||
                (1 <<< (dcPermLookup (sbox_idx * 4 + bit_idx) % 4)))
          else ap2)
        ap)
    (List.replicate 4 0)

/-- The `for round_num in range(num_rounds-1)` loop of the trace, carrying
(state_diff, probability, active list, trails). -/
def traceLoop : Nat → List Nat × ℚ × List Nat × List (List Nat) →
    List Nat × ℚ × List Nat × List (List Nat)
  | 0, st => st
  | n + 1, st =>
    traceLoop n (permStep (sboxRound st.1 st.2.1 st.2.2.1).1,
      (sboxRound st.1 st.2.1 st.2.2.1).2.1,
      (sboxRound st.1 st.2.1 st.2.2.1).2.2,
      st.2.2.2 ++ [permStep (sboxRound st.1 st.2.1 st.2.2.1).1])

/-- `trace_differential_trail`: the function's own body overwrites slot 1 of
a fresh zero vector with its argument (`state_diff[1] = input_diff`), runs
`num_rounds-1` rounds with permutation, then a final S-box-only round. -/
def trace_differential_trail (input_diff : Nat) (num_rounds : Nat := 4) : TrailResult :=
  let state_diff : List Nat := [0, input_diff, 0, 0]
  let st := traceLoop (num_rounds - 1) (state_diff, 1, [], [state_diff])
  let fin := sboxRound st.1 st.2.1 st.2.2.1
  { trail := st.2.2.2 ++ [fin.1],
    probability := fin.2.1,
    active_sboxes := fin.2.2.dedup.length }

/-- The seed vector `find_best_differential_trail` builds for an S-box
position: a zero vector with `input_diff` at `sbox_pos`. -/
def seed_vector (sbox_pos input_diff : Nat) : List Nat :=
  (List.replicate 4 0).set sbox_pos input_diff

/-- Generic form of the write loops: fold `acc.set p.2 (f p.1)` over pairs. -/
def writeFold (f : Nat → Nat) (pairs : List (Nat × Nat)) (init : List Nat) : List Nat :=
  pairs.foldl (fun acc p => acc.set p.2 (f p.1)) init

/-- Little-endian value of a bit list (the mathematical meaning of
`_convert_to_int` on a full-length input). -/
def natOfBits : List Nat → Nat
  | [] => 0
  | b :: bs => b + 2 * natOfBits bs

end SpnModel

namespace SpnModel

/-! Supporting lemmas. -/

theorem sum_map_two_mul (l : List Nat) (g : Nat → Nat) :
    (l.map (fun a => 2 * g a)).sum = 2 * (l.map g).sum := by
  induction l with
  | nil => simp
  | cons a l ih => simp [ih]; ring

theorem convert_to_int_full (x : List Nat) : convert_to_int x.length x = some (natOfBits x) := by
  rw [convert_to_int, if_pos rfl]
  congr 1
  induction x with
  | nil => simp [natOfBits]
  | cons b bs ih =>
    rw [List.length_cons, List.range_succ_eq_map, List.map_cons, List.map_map, List.sum_cons]
    have h1 : ∀ i : Nat, ((fun i => (b :: bs).getD i 0 <<< i) ∘ Nat.succ) i
        = 2 * (bs.getD i 0 <<< i) := by
      intro i
      simp only [Function.comp_apply, List.getD_cons_succ]
      rw [Nat.shiftLeft_succ]
    rw [List.map_congr_left (fun i _ => h1 i), sum_map_two_mul, ih]
    simp [natOfBits]

theorem natOfBits_lt (x : List Nat) (hbit : ∀ b ∈ x, b < 2) : natOfBits x < 2 ^ x.length := by
  induction x with
  | nil => simp [natOfBits]
  | cons b bs ih =>
    have hb : b < 2 := hbit b (by simp)
    have hbs := ih (fun v hv => hbit v (by simp [hv]))
    simp only [natOfBits, List.length_cons, pow_succ]
    omega

theorem convert_to_binary_succ_aux (v : Nat) :
    ((fun i => (v >>> i) &&& 1) ∘ Nat.succ) = (fun i => ((v >>> 1) >>> i) &&& 1) := by
  funext i
  simp only [Function.comp_apply]
  rw [Nat.succ_eq_add_one, Nat.add_comm, Nat.shiftRight_add]

theorem convert_to_binary_succ (n v : Nat) :
    convert_to_binary (n + 1) v = (v &&& 1) :: convert_to_binary n (v >>> 1) := by
  rw [convert_to_binary, List.range_succ_eq_map, List.map_cons, List.map_map,
    convert_to_binary_succ_aux]
  rfl

theorem convert_to_binary_length (n v : Nat) : (convert_to_binary n v).length = n := by
  simp [convert_to_binary]

theorem convert_to_binary_bits (n v : Nat) : ∀ b ∈ convert_to_binary n v, b < 2 := by
  intro b hb
  rw [convert_to_binary, List.mem_map] at hb
  obtain ⟨i, _, rfl⟩ := hb
  have : (v >>> i) &&& 1 = (v >>> i) % 2 := Nat.and_one_is_mod _
  omega

theorem convert_to_binary_natOfBits (x : List Nat) (hbit : ∀ b ∈ x, b < 2) :
    convert_to_binary x.length (natOfBits x) = x := by
  induction x with
  | nil => simp [convert_to_binary]
  | cons b bs ih =>
    have hb : b < 2 := hbit b (by simp)
    have hbs := ih (fun v hv => hbit v (by simp [hv]))
    rw [List.length_cons, convert_to_binary_succ]
    have h1 : natOfBits (b :: bs) &&& 1 = b := by
      rw [Nat.and_one_is_mod]
      simp only [natOfBits]
      omega
    have h2 : natOfBits (b :: bs) >>> 1 = natOfBits bs := by
      rw [Nat.shiftRight_one]
      simp only [natOfBits]
      omega
    rw [h1, h2, hbs]

theorem natOfBits_convert_to_binary (n v : Nat) (hv : v < 2 ^ n) :
    natOfBits (convert_to_binary n v) = v := by
  induction n generalizing v with
  | zero =>
    simp only [pow_zero, Nat.lt_one_iff] at hv
    simp [convert_to_binary, hv, natOfBits]
  | succ n ih =>
    rw [convert_to_binary_succ]
    have hv2 : v >>> 1 < 2 ^ n := by
      rw [Nat.shiftRight_one]
      rw [pow_succ] at hv
      omega
    simp only [natOfBits, ih _ hv2]
    rw [Nat.and_one_is_mod, Nat.shiftRight_one]
    omega

end SpnModel

namespace SpnModel

/-! writeFold lemmas: the common shape of `PermutationLayer` writes and
`_compute_inverse`. -/

theorem writeFold_cons (f : Nat → Nat) (p : Nat × Nat) (ps : List (Nat × Nat))
    (init : List Nat) :
    writeFold f (p :: ps) init = writeFold f ps (init.set p.2 (f p.1)) := rfl

theorem writeFold_length (f : Nat → Nat) (pairs : List (Nat × Nat)) (init : List Nat) :
    (writeFold f pairs init).length = init.length := by
  induction pairs generalizing init with
  | nil => rfl
  | cons p ps ih => rw [writeFold_cons, ih, List.length_set]

theorem writeFold_getD_not_mem (f : Nat → Nat) (pairs : List (Nat × Nat)) (init : List Nat)
    (j d : Nat) (hj : j ∉ pairs.map Prod.snd) :
    (writeFold f pairs init).getD j d = init.getD j d := by
  induction pairs generalizing init with
  | nil => rfl
  | cons p ps ih =>
    simp only [List.map_cons, List.mem_cons, not_or] at hj
    rw [writeFold_cons, ih _ hj.2]
    simp only [List.getD_eq_getElem?_getD]
    rw [List.getElem?_set_ne (fun h => hj.1 h.symm)]

theorem writeFold_getD_mem (f : Nat → Nat) (pairs : List (Nat × Nat)) (init : List Nat)
    (d : Nat) (hnd : (pairs.map Prod.snd).Nodup) :
    ∀ p ∈ pairs, p.2 < init.length → (writeFold f pairs init).getD p.2 d = f p.1 := by
  induction pairs generalizing init with
  | nil => intro p hp; cases hp
  | cons q ps ih =>
    simp only [List.map_cons, List.nodup_cons] at hnd
    intro p hp hlt
    rcases List.mem_cons.1 hp with rfl | hp'
    · rw [writeFold_cons, writeFold_getD_not_mem _ _ _ _ _ hnd.1]
      simp only [List.getD_eq_getElem?_getD]
      rw [List.getElem?_set_self hlt]
      rfl
    · rw [writeFold_cons]
      exact ih _ hnd.2 p hp' (by rwa [List.length_set])

theorem setPairs_eq_writeFold (state : List Nat) (pairs : List (Nat × Nat)) (acc : List Nat)
    (h : ∀ p ∈ pairs, p.1 < state.length ∧ p.2 < acc.length) :
    setPairs state pairs acc = some (writeFold (fun s => state.getD s 0) pairs acc) := by
  induction pairs generalizing acc with
  | nil => rfl
  | cons p ps ih =>
    have hp := h p (by simp)
    rw [setPairs, if_pos hp, writeFold_cons]
    exact ih _ (fun q hq => ⟨(h q (by simp [hq])).1, by rw [List.length_set]; exact (h q (by simp [hq])).2⟩)

theorem dedup_length_eq_iff (l : List Nat) : l.dedup.length = l.length ↔ l.Nodup := by
  constructor
  · intro h
    have heq := (List.dedup_sublist l).eq_of_length h
    rw [← heq]
    exact l.nodup_dedup
  · intro h
    rw [List.dedup_eq_self.2 h]

theorem nodup_bounded_full (l : List Nat) (n : Nat) (hn : l.Nodup) (hl : l.length = n)
    (hb : ∀ v ∈ l, v < n) : ∀ j, j < n → j ∈ l := by
  intro j hj
  have hsub : l.toFinset ⊆ Finset.range n := by
    intro v hv
    rw [Finset.mem_range]
    exact hb v (List.mem_toFinset.1 hv)
  have hcard : (Finset.range n).card ≤ l.toFinset.card := by
    rw [Finset.card_range, List.toFinset_card_of_nodup hn, hl]
  have := Finset.eq_of_subset_of_card_le hsub hcard
  rw [← List.mem_toFinset, this, Finset.mem_range]
  exact hj

end SpnModel

namespace SpnModel

/-! Claim theorems (with more supporting lemmas interleaved above each). -/

/-- C1 evidence: on the concrete cipher of differential_crypto.py
(4 standard rounds, S-box `dcTable`, transpose permutation, schedule
`generate_round_key`) the encryption of the test plaintext under the
32-bit test master key succeeds, `decrypt_` of the result also succeeds,
but it does not return the plaintext: the forward-order `decrypt_`
traversal is not the inverse of `encrypt`. -/
theorem c1_roundtrip_fails :
    (dcSpn.bind fun s => s.encrypt dcPlaintext dcMasterKey) =
      some [1, 1, 0, 0, 0, 0, 0, 1, 0, 0, 0, 1, 0, 1, 0, 1] ∧
    (dcSpn.bind fun s => (s.encrypt dcPlaintext dcMasterKey).bind fun c =>
      s.decrypt_ c dcMasterKey) =
      some [0, 1, 0, 0, 1, 0, 0, 1, 1, 1, 0, 0, 1, 1, 1, 0] ∧
    [0, 1, 0, 0, 1, 0, 0, 1, 1, 1, 0, 0, 1, 1, 1, 0] ≠ dcPlaintext :=
  ⟨rfl, rfl, by decide⟩

theorem traceLoop_trail_prefix (n : Nat) (st : List Nat × ℚ × List Nat × List (List Nat)) :
    ∃ rest, (traceLoop n st).2.2.2 = st.2.2.2 ++ rest := by
  induction n generalizing st with
  | zero => exact ⟨[], by simp [traceLoop]⟩
  | succ n ih =>
    obtain ⟨rest, hr⟩ := ih (permStep (sboxRound st.1 st.2.1 st.2.2.1).1,
      (sboxRound st.1 st.2.1 st.2.2.1).2.1,
      (sboxRound st.1 st.2.1 st.2.2.1).2.2,
      st.2.2.2 ++ [permStep (sboxRound st.1 st.2.1 st.2.2.1).1])
    exact ⟨[permStep (sboxRound st.1 st.2.1 st.2.2.1).1] ++ rest,
      by rw [traceLoop, hr, List.append_assoc]⟩

/-- C2 evidence: whatever difference `d` is passed and however many rounds
run, the round-0 entry of the returned trail is `[0, d, 0, 0]` - the
argument is forced into S-box position 1 of a fresh zero vector, so the
trace never starts from the caller's seed vector. -/
theorem c2_trace_first_entry (d r : Nat) :
    (trace_differential_trail d r).trail.head? = some [0, d, 0, 0] := by
  obtain ⟨rest, hr⟩ := traceLoop_trail_prefix (r - 1) ([0, d, 0, 0], 1, [], [[0, d, 0, 0]])
  simp only [trace_differential_trail, hr]
  rfl

/-- C10: the master key of 16 zero bits passes the `_check_master_key`
length guard of the 16-bit standard cipher, yet encryption fails: the
round-2 key slice `master_key[4:20]` has only 12 bits, so the whitening
step raises. -/
theorem c10_min_length_key_still_fails :
    dcSpn.isSome = true ∧
    ¬ ((List.replicate 16 0 : List Nat).length < 16) ∧
    (generate_round_key (List.replicate 16 0) 2 16).length = 12 ∧
    (dcSpn.bind fun s => s.encrypt dcPlaintext (List.replicate 16 0)) = none :=
  ⟨rfl, by decide, by decide, rfl⟩

/-- C8: whenever the master key is shorter than the block length, `encrypt`
returns the error immediately - for every layer list, so no layer is
applied first. -/
theorem c8_short_key_rejected (spn : SPN) (state masterKey : List Nat)
    (h : masterKey.length < spn.length) :
    spn.encrypt state masterKey = none := by
  rw [SPN.encrypt, if_pos h]

/-- C8 witness: the empty key against a 16-bit cipher. -/
theorem c8_short_key_rejected_witness :
    (SPN.mk [SPNLayer.whitening] 16 1 (fun mk r => generate_round_key mk r 16)).encrypt
      dcPlaintext [] = none :=
  c8_short_key_rejected _ _ _ (by decide)

/-- C9: the round-key schedule takes `key_size` bits starting at
`4*round_num - 4`; on the 32-bit test master key, round 1 yields
`0110101011000101` and round 5 yields `1001011010101100`. -/
theorem c9_round_key_schedule :
    (∀ (mk : List Nat) (r ks : Nat), 4 * r - 4 + ks ≤ mk.length →
      (generate_round_key mk r ks).length = ks ∧
      ∀ i, i < ks → (generate_round_key mk r ks).getD i 0 = mk.getD (4 * r - 4 + i) 0) ∧
    generate_round_key dcMasterKey 1 16 = [0, 1, 1, 0, 1, 0, 1, 0, 1, 1, 0, 0, 0, 1, 0, 1] ∧
    generate_round_key dcMasterKey 5 16 = [1, 0, 0, 1, 0, 1, 1, 0, 1, 0, 1, 0, 1, 1, 0, 0] := by
  refine ⟨fun mk r ks hlen => ⟨?_, fun i hi => ?_⟩, rfl, rfl⟩
  · rw [generate_round_key, List.length_take, List.length_drop]
    omega
  · rw [generate_round_key]
    simp only [List.getD_eq_getElem?_getD]
    rw [List.getElem?_take_of_lt hi, List.getElem?_drop]

/-- C6 counterexample: the map `{5: 0}` is not a bijection over `[0, 1)` -
its source index 5 is out of range - yet construction accepts it, because
validation only examines destination values. -/
theorem c6_nonbijective_map_accepted :
    PermutationLayer.new [((5 : Nat), (0 : Nat))] = some (SPNLayer.permutation [(5, 0)]) ∧
    ¬ (5 < ([((5 : Nat), (0 : Nat))] : List (Nat × Nat)).length) :=
  ⟨rfl, by decide⟩

/-- C6 amended: construction succeeds exactly when the map is non-empty,
every destination value lies in `[0, len)` and no destination repeats;
source indices are never checked. -/
theorem c6_validation_characterization (perm : List (Nat × Nat)) :
    (PermutationLayer.new perm).isSome = true ↔
      perm ≠ [] ∧ (∀ p ∈ perm, p.2 < perm.length) ∧ (perm.map Prod.snd).Nodup := by
  rw [PermutationLayer.new]
  constructor
  · intro h
    have hv : validate_permutation perm = true := by
      by_contra hv
      rw [if_neg hv] at h
      simp at h
    rw [validate_permutation, Bool.and_eq_true, Bool.and_eq_true] at hv
    obtain ⟨⟨h1, h2⟩, h3⟩ := hv
    refine ⟨by simpa using h1, ?_, ?_⟩
    · intro p hp
      have := List.all_eq_true.1 h2 p.2 (List.mem_map.2 ⟨p, hp, rfl⟩)
      simpa using this
    · have h3' : (perm.map Prod.snd).dedup.length = perm.length := by simpa using h3
      rw [← dedup_length_eq_iff]
      rw [h3', List.length_map]
  · rintro ⟨h1, h2, h3⟩
    have hv : validate_permutation perm = true := by
      rw [validate_permutation, Bool.and_eq_true, Bool.and_eq_true]
      refine ⟨⟨by simpa using h1, List.all_eq_true.2 ?_⟩, ?_⟩
      · intro v hv
        obtain ⟨p, hp, rfl⟩ := List.mem_map.1 hv
        simpa using h2 p hp
      · have := (dedup_length_eq_iff (perm.map Prod.snd)).2 h3
        rw [this, List.length_map]
        simp
    rw [if_pos hv]
    rfl

theorem sum_map_add_split {α : Type} (l : List α) (f g : α → Nat) :
    (l.map (fun x => f x + g x)).sum = (l.map f).sum + (l.map g).sum := by
  induction l with
  | nil => simp
  | cons a l ih => simp [ih]; ring

theorem sum_map_ite_one (n v : Nat) (h : v < n) :
    ((List.range n).map (fun bp => if v = bp then (1 : Nat) else 0)).sum = 1 := by
  induction n with
  | zero => omega
  | succ n ih =>
    rw [List.range_succ, List.map_append, List.sum_append]
    rcases Nat.lt_or_ge v n with h' | h'
    · rw [ih h']
      have hne : v ≠ n := by omega
      simp [hne]
    · have hv : v = n := by omega
      subst hv
      have hz : ((List.range v).map (fun bp => if v = bp then (1 : Nat) else 0)).sum = 0 := by
        apply List.sum_eq_zero
        intro x hx
        obtain ⟨bp, hbp, rfl⟩ := List.mem_map.1 hx
        rw [List.mem_range] at hbp
        simp [Nat.ne_of_gt hbp]
      rw [hz]
      simp

theorem sum_length_filter_partition (l : List Nat) (f : Nat → Nat) (n : Nat)
    (h : ∀ a ∈ l, f a < n) :
    ((List.range n).map (fun bp => (l.filter (fun a => f a = bp)).length)).sum = l.length := by
  induction l with
  | nil => simp
  | cons a l ih =>
    have ha : f a < n := h a (by simp)
    have ihl := ih (fun x hx => h x (by simp [hx]))
    have hsplit : ∀ bp ∈ List.range n, ((a :: l).filter (fun x => f x = bp)).length
        = (if f a = bp then (1 : Nat) else 0) + (l.filter (fun x => f x = bp)).length := by
      intro bp _
      rw [List.filter_cons]
      by_cases hfa : f a = bp
      · simp only [hfa]
        simp
        omega
      · simp [hfa]
    rw [List.map_congr_left hsplit, sum_map_add_split, sum_map_ite_one n (f a) ha, ihl]
    simp only [List.length_cons]
    omega

theorem getD_lt_of_all (table : List Nat) (m a : Nat) (hp : 0 < m)
    (hrange : ∀ v ∈ table, v < m) : table.getD a 0 < m := by
  rcases Nat.lt_or_ge a table.length with h | h
  · rw [List.getD_eq_getElem?_getD, List.getElem?_eq_getElem h]
    exact hrange _ (List.getElem_mem h)
  · rw [List.getD_eq_getElem?_getD, List.getElem?_eq_none h]
    simpa using hp

theorem validate_table_iff (size : Nat) (table : List Nat) :
    validate_table size table = true ↔
      table.length = size ∧ (∀ v ∈ table, v < size) ∧ table.Nodup := by
  constructor
  · intro h
    rw [validate_table, Bool.and_eq_true] at h
    obtain ⟨h1, h23⟩ := h
    rw [is_bijective, Bool.and_eq_true] at h23
    obtain ⟨h2, h3⟩ := h23
    rw [decide_eq_true_eq] at h1
    rw [decide_eq_true_eq] at h3
    refine ⟨h1, ?_, ?_⟩
    · intro v hv
      simpa using List.all_eq_true.1 h2 v hv
    · rw [← dedup_length_eq_iff]
      omega
  · rintro ⟨h1, h2, h3⟩
    rw [validate_table, Bool.and_eq_true, is_bijective, Bool.and_eq_true]
    refine ⟨by simpa using h1, List.all_eq_true.2 fun v hv => by simpa using h2 v hv, ?_⟩
    rw [decide_eq_true_eq, (dedup_length_eq_iff table).2 h3]
    exact h1

/-- C3: for a table passing the S-box validation for bit width k, every DDT
row sums to 2^k, and the entry at row 0, column 0 is 2^k. -/
theorem c3_ddt_row_invariants (table : List Nat) (k d : Nat)
    (hval : validate_table (2 ^ k) table = true) (hd : d < 2 ^ k) :
    ddt_row_sum table (2 ^ k) d = 2 ^ k ∧ ddt_entry table (2 ^ k) 0 0 = 2 ^ k := by
  have hrange : ∀ v ∈ table, v < 2 ^ k := ((validate_table_iff _ _).1 hval).2.1
  have hp : 0 < 2 ^ k := Nat.two_pow_pos k
  constructor
  · rw [ddt_row_sum]
    have hdiff : ∀ a ∈ List.range (2 ^ k),
        table.getD a 0 ^^^ table.getD (a ^^^ d) 0 < 2 ^ k := by
      intro a _
      exact Nat.xor_lt_two_pow (getD_lt_of_all table _ _ hp hrange)
        (getD_lt_of_all table _ _ hp hrange)
    have := sum_length_filter_partition (List.range (2 ^ k))
      (fun a => table.getD a 0 ^^^ table.getD (a ^^^ d) 0) (2 ^ k) hdiff
    simpa [ddt_entry, List.length_range] using this
  · rw [ddt_entry]
    have hall : ∀ a ∈ List.range (2 ^ k),
        (fun a => decide (table.getD a 0 ^^^ table.getD (a ^^^ 0) 0 = 0)) a = true := by
      intro a _
      simp
    rw [List.filter_eq_self.2 hall, List.length_range]

/-- C3 witness: the S-box table of differential_crypto.py at k = 4, row 3. -/
theorem c3_ddt_row_invariants_witness :
    ddt_row_sum dcTable (2 ^ 4) 3 = 2 ^ 4 ∧ ddt_entry dcTable (2 ^ 4) 0 0 = 2 ^ 4 :=
  c3_ddt_row_invariants dcTable 4 3 (by decide) (by decide)

/-- C7: constructing an S-box from (table, bits) succeeds if and only if the
table has length 2^bits, all values below 2^bits and no repeats; on success
the table is stored unchanged and the inverse is the precomputed one. -/
theorem c7_sbox_validation (table : List Nat) (bits : Nat) :
    ((SBOX.new table bits).isSome = true ↔
      table.length = 2 ^ bits ∧ (∀ v ∈ table, v < 2 ^ bits) ∧ table.Nodup) ∧
    ∀ s, SBOX.new table bits = some s →
      s.table = table ∧ s.inverse = compute_inverse (2 ^ bits) table := by
  constructor
  · rw [SBOX.new]
    by_cases hv : validate_table (2 ^ bits) table = true
    · rw [if_pos hv]
      simpa using (validate_table_iff (2 ^ bits) table).1 hv
    · rw [if_neg hv]
      simp only [Option.isSome_none, Bool.false_eq_true, false_iff]
      rw [← validate_table_iff (2 ^ bits) table]
      exact fun h => hv h
  · intro s hs
    rw [SBOX.new] at hs
    by_cases hv : validate_table (2 ^ bits) table = true
    · rw [if_pos hv] at hs
      cases hs
      exact ⟨rfl, rfl⟩
    · rw [if_neg hv] at hs
      cases hs

/-- C4: a permutation layer built from a genuine bijection over `[0, L)`
(distinct sources, distinct destinations, all in range) decrypts its own
encryption of every state of matching length. -/
theorem c4_permutation_round_trip (perm : List (Nat × Nat)) (state : List Nat)
    (hfst : (perm.map Prod.fst).Nodup)
    (hsnd : (perm.map Prod.snd).Nodup)
    (hbound : ∀ p ∈ perm, p.1 < perm.length ∧ p.2 < perm.length)
    (hlen : state.length = perm.length) :
    (permutation_encrypt perm state).bind (permutation_decrypt perm) = some state := by
  have henc : permutation_encrypt perm state
      = some (writeFold (fun s => state.getD s 0) perm (List.replicate perm.length 0)) := by
    rw [permutation_encrypt, if_pos hlen]
    refine setPairs_eq_writeFold _ _ _ fun p hp => ?_
    rw [hlen, List.length_replicate]
    exact hbound p hp
  have hencLen : (writeFold (fun s => state.getD s 0) perm
      (List.replicate perm.length 0)).length = perm.length := by
    rw [writeFold_length, List.length_replicate]
  have hencGet : ∀ p ∈ perm,
      (writeFold (fun s => state.getD s 0) perm (List.replicate perm.length 0)).getD p.2 0
        = state.getD p.1 0 := by
    intro p hp
    exact writeFold_getD_mem _ _ _ _ hsnd p hp
      (by rw [List.length_replicate]; exact (hbound p hp).2)
  have hswapsnd : (perm.map (fun p => (p.2, p.1))).map Prod.snd = perm.map Prod.fst := by
    rw [List.map_map]
    rfl
  have hdec : permutation_decrypt perm
      (writeFold (fun s => state.getD s 0) perm (List.replicate perm.length 0))
      = some (writeFold
          (fun t => (writeFold (fun s => state.getD s 0) perm
            (List.replicate perm.length 0)).getD t 0)
          (perm.map (fun p => (p.2, p.1))) (List.replicate perm.length 0)) := by
    rw [permutation_decrypt, if_pos hencLen]
    refine setPairs_eq_writeFold _ _ _ fun q hq => ?_
    obtain ⟨p, hp, rfl⟩ := List.mem_map.1 hq
    exact ⟨by rw [hencLen]; exact (hbound p hp).2,
      by rw [List.length_replicate]; exact (hbound p hp).1⟩
  have hdecLen : (writeFold
      (fun t => (writeFold (fun s => state.getD s 0) perm
        (List.replicate perm.length 0)).getD t 0)
      (perm.map (fun p => (p.2, p.1))) (List.replicate perm.length 0)).length
        = perm.length := by
    rw [writeFold_length, List.length_replicate]
  have hdecGet : ∀ p ∈ perm,
      (writeFold
        (fun t => (writeFold (fun s => state.getD s 0) perm
          (List.replicate perm.length 0)).getD t 0)
        (perm.map (fun p => (p.2, p.1))) (List.replicate perm.length 0)).getD p.1 0
        = (writeFold (fun s => state.getD s 0) perm
            (List.replicate perm.length 0)).getD p.2 0 := by
    intro p hp
    exact writeFold_getD_mem _ _ _ _ (hswapsnd ▸ hfst) (p.2, p.1)
      (List.mem_map.2 ⟨p, hp, rfl⟩)
      (by rw [List.length_replicate]; exact (hbound p hp).1)
  have hcover : ∀ j, j < perm.length → ∃ p ∈ perm, p.1 = j := by
    intro j hj
    have hmem := nodup_bounded_full (perm.map Prod.fst) perm.length hfst
      (List.length_map _ _)
      (fun v hv => by
        obtain ⟨p, hp, rfl⟩ := List.mem_map.1 hv
        exact (hbound p hp).1) j hj
    obtain ⟨p, hp, hpj⟩ := List.mem_map.1 hmem
    exact ⟨p, hp, hpj⟩
  have hpoint : ∀ j, j < perm.length →
      (writeFold
        (fun t => (writeFold (fun s => state.getD s 0) perm
          (List.replicate perm.length 0)).getD t 0)
        (perm.map (fun p => (p.2, p.1))) (List.replicate perm.length 0)).getD j 0
        = state.getD j 0 := by
    intro j hj
    obtain ⟨p, hp, rfl⟩ := hcover j hj
    rw [hdecGet p hp, hencGet p hp]
  have hfinal : writeFold
      (fun t => (writeFold (fun s => state.getD s 0) perm
        (List.replicate perm.length 0)).getD t 0)
      (perm.map (fun p => (p.2, p.1))) (List.replicate perm.length 0) = state := by
    apply List.ext_getElem?
    intro n
    rcases Nat.lt_or_ge n perm.length with h | h
    · have hpn := hpoint n h
      rw [List.getD_eq_getElem?_getD, List.getD_eq_getElem?_getD,
        List.getElem?_eq_getElem (by rw [hdecLen]; exact h),
        List.getElem?_eq_getElem (by rw [hlen]; exact h)] at hpn
      rw [List.getElem?_eq_getElem (by rw [hdecLen]; exact h),
        List.getElem?_eq_getElem (by rw [hlen]; exact h)]
      simpa using hpn
    · rw [List.getElem?_eq_none (by rw [hdecLen]; exact h),
        List.getElem?_eq_none (by rw [hlen]; exact h)]
  rw [henc, Option.some_bind, hdec, hfinal]

/-- C4 witness: the 2-bit swap permutation applied to the state `[5, 9]`. -/
theorem c4_permutation_round_trip_witness :
    (permutation_encrypt [(0, 1), (1, 0)] [5, 9]).bind
      (permutation_decrypt [(0, 1), (1, 0)]) = some [5, 9] :=
  c4_permutation_round_trip [(0, 1), (1, 0)] [5, 9] (by decide) (by decide)
    (by decide) (by decide)

theorem compute_inverse_eq_writeFold (size : Nat) (table : List Nat) :
    compute_inverse size table = writeFold id table.enum (List.replicate size 0) := rfl

theorem compute_inverse_length (size : Nat) (table : List Nat) :
    (compute_inverse size table).length = size := by
  rw [compute_inverse_eq_writeFold, writeFold_length, List.length_replicate]

theorem compute_inverse_getD (table : List Nat) (size : Nat) (hnd : table.Nodup)
    (hrange : ∀ v ∈ table, v < size) :
    ∀ i (hi : i < table.length), (compute_inverse size table).getD table[i] 0 = i := by
  intro i hi
  rw [compute_inverse_eq_writeFold]
  have hmem : (i, table[i]) ∈ table.enum :=
    List.mk_mem_enum_iff_getElem?.2 (List.getElem?_eq_getElem hi)
  have hnd' : (table.enum.map Prod.snd).Nodup := by
    rw [List.enum_map_snd]
    exact hnd
  exact writeFold_getD_mem id table.enum (List.replicate size 0) 0 hnd' (i, table[i]) hmem
    (by rw [List.length_replicate]; exact hrange _ (List.getElem_mem hi))

theorem getD_eq_getElem_of_lt (l : List Nat) (i : Nat) (h : i < l.length) :
    l.getD i 0 = l[i] := by
  rw [List.getD_eq_getElem?_getD, List.getElem?_eq_getElem h]
  rfl

theorem convert_int_binary (bits w : Nat) (hw : w < 2 ^ bits) :
    convert_to_int bits (convert_to_binary bits w) = some w := by
  have hfull := convert_to_int_full (convert_to_binary bits w)
  rw [convert_to_binary_length bits w] at hfull
  rw [hfull, natOfBits_convert_to_binary bits w hw]

/-- Fidelity of the DDT embedding: the value the df-building loop computes as
`sbox._convert_to_int(sbox.encrypt(sbox._convert_to_binary(a)))` is exactly
the table lookup `table.getD a 0` that `ddt_entry` uses, for every in-range
input of a valid S-box. -/
theorem ddt_lookup_matches_encrypt (table : List Nat) (bits : Nat) (s : SBOX) (a : Nat)
    (hs : SBOX.new table bits = some s) (ha : a < 2 ^ bits) :
    (s.encrypt (convert_to_binary bits a)).bind (convert_to_int bits)
      = some (table.getD a 0) := by
  rw [SBOX.new] at hs
  by_cases hv : validate_table (2 ^ bits) table = true
  case neg =>
    rw [if_neg hv] at hs
    cases hs
  rw [if_pos hv] at hs
  cases hs
  obtain ⟨hlen, hrange, _⟩ := (validate_table_iff _ _).1 hv
  have hat : a < table.length := by
    rw [hlen]
    exact ha
  rw [SBOX.encrypt]
  simp only [convert_int_binary bits a ha, Option.some_bind,
    List.getElem?_eq_getElem hat, Option.map_some', Option.some_bind]
  rw [convert_int_binary bits table[a] (hrange _ (List.getElem_mem hat)),
    getD_eq_getElem_of_lt _ _ hat]

/-- C5: a validly constructed S-box decrypts its own encryption and encrypts
its own decryption of every `bits`-long bit vector. -/
theorem c5_sbox_round_trip (table : List Nat) (bits : Nat) (s : SBOX) (x : List Nat)
    (hs : SBOX.new table bits = some s) (hxlen : x.length = bits)
    (hxbit : ∀ b ∈ x, b < 2) :
    (s.encrypt x).bind s.decrypt = some x ∧ (s.decrypt x).bind s.encrypt = some x := by
  rw [SBOX.new] at hs
  by_cases hv : validate_table (2 ^ bits) table = true
  case neg =>
    rw [if_neg hv] at hs
    cases hs
  rw [if_pos hv] at hs
  cases hs
  obtain ⟨hlen, hrange, hnd⟩ := (validate_table_iff _ _).1 hv
  have hv' : natOfBits x < 2 ^ bits := by
    rw [← hxlen]
    exact natOfBits_lt x hxbit
  have hvtab : natOfBits x < table.length := by
    rw [hlen]
    exact hv'
  have hconv : convert_to_int bits x = some (natOfBits x) := by
    rw [← hxlen]
    exact convert_to_int_full x
  have hbinx : convert_to_binary bits (natOfBits x) = x := by
    rw [← hxlen]
    exact convert_to_binary_natOfBits x hxbit
  have hinvlen : (compute_inverse (2 ^ bits) table).length = 2 ^ bits :=
    compute_inverse_length _ _
  have hinvget := compute_inverse_getD table (2 ^ bits) hnd hrange
  have hconvbin : ∀ w, w < 2 ^ bits → convert_to_int bits (convert_to_binary bits w)
      = some w := by
    intro w hw
    have hfull := convert_to_int_full (convert_to_binary bits w)
    rw [convert_to_binary_length bits w] at hfull
    rw [hfull, natOfBits_convert_to_binary bits w hw]
  constructor
  · -- decrypt after encrypt
    have htv : table[natOfBits x] < 2 ^ bits := hrange _ (List.getElem_mem hvtab)
    have htinv : table[natOfBits x] < (compute_inverse (2 ^ bits) table).length := by
      rw [hinvlen]
      exact htv
    rw [SBOX.encrypt]
    simp only [hconv, Option.some_bind, List.getElem?_eq_getElem hvtab, Option.map_some']
    rw [SBOX.decrypt]
    simp only [hconvbin _ htv, Option.some_bind, List.getElem?_eq_getElem htinv,
      Option.map_some']
    have h2 := hinvget (natOfBits x) hvtab
    rw [getD_eq_getElem_of_lt _ _ htinv] at h2
    rw [h2, hbinx]
  · -- encrypt after decrypt
    have hxinv : natOfBits x < (compute_inverse (2 ^ bits) table).length := by
      rw [hinvlen]
      exact hv'
    obtain ⟨n, hn, hnv⟩ := List.mem_iff_getElem.1
      (nodup_bounded_full table (2 ^ bits) hnd hlen hrange (natOfBits x) hv')
    have hw : (compute_inverse (2 ^ bits) table)[natOfBits x] = n := by
      have h2 := hinvget n hn
      rw [hnv] at h2
      rw [getD_eq_getElem_of_lt _ _ hxinv] at h2
      exact h2
    have hnlt : n < 2 ^ bits := by
      rw [← hlen]
      exact hn
    rw [SBOX.decrypt]
    simp only [hconv, Option.some_bind, List.getElem?_eq_getElem hxinv, Option.map_some']
    rw [SBOX.encrypt]
    simp only [hconvbin _ (hw ▸ hnlt), Option.some_bind]
    rw [hw]
    simp only [List.getElem?_eq_getElem hn, Option.map_some']
    rw [hnv, hbinx]

/-- C5 witness: the default S-box of spn_components.py on the 4-bit input
`[1, 0, 1, 0]` (the value 5). -/
theorem c5_sbox_round_trip_witness :
    ((SBOX.mk 4 16 default_table (compute_inverse 16 default_table)).encrypt
        [1, 0, 1, 0]).bind
      (SBOX.mk 4 16 default_table (compute_inverse 16 default_table)).decrypt
      = some [1, 0, 1, 0] ∧
    ((SBOX.mk 4 16 default_table (compute_inverse 16 default_table)).decrypt
        [1, 0, 1, 0]).bind
      (SBOX.mk 4 16 default_table (compute_inverse 16 default_table)).encrypt
      = some [1, 0, 1, 0] :=
  c5_sbox_round_trip default_table 4
    (SBOX.mk 4 16 default_table (compute_inverse 16 default_table))
    [1, 0, 1, 0] (by rfl) (by decide) (by decide)

end SpnModel
